import Mathlib

/-!
Shallow embedding of src/binomial_tree.py: a recombining binomial lattice of
short interest rates, backward-induction pricing of a zero-coupon bond with
notional 100, and spot-rate extraction.

Modelling choices:
* Python floats are modelled by rational numbers (their idealized exact values); `np.NaN` cells are modelled by
  `none` in an `Option ℚ`-valued square lattice, and numpy's NaN-propagating
  arithmetic by `Option`-propagating operations.
* Python exceptions (`ValueError` from `get_rate_at_node`, `ZeroDivisionError`
  from the integer division `1/periods`) are modelled with `Except`.
* A lattice is a function `ℕ → ℕ → Option ℚ` (row = time, column = state);
  `np.full((n,n), np.NaN)` is the constantly-`none` function and every array
  assignment is a pointwise functional update.  All array accesses performed by
  the source stay inside the allocated square, so bounds are not re-checked.
* The price-tree builder is instrumented with a ghost log of every cell read
  from the rate tree and from the price tree, so that statements about which
  cells the backward-induction pass reads are provable.
-/

/-- Python exceptions that the translated code can raise. -/
inductive PyErr where
  | valueError : PyErr
  | zeroDivisionError : PyErr
deriving DecidableEq, Repr

/-- Square lattice with NaN-able cells: `none` is the NaN sentinel. -/
def Grid : Type := ℕ → ℕ → Option ℚ

/-- The all-NaN lattice, `np.full((n,n), np.NaN)`. -/
def emptyLattice : Grid := fun _ _ => none

/-- Assignment `tree[i,j] = v` of a possibly-NaN value. -/
def writeCellO (L : Grid) (i j : ℕ) (v : Option ℚ) : Grid :=
  fun a b => if a = i ∧ b = j then v else L a b

/-- Assignment `tree[i,j] = v` of a real value. -/
def writeCell (L : Grid) (i j : ℕ) (v : ℚ) : Grid :=
  writeCellO L i j (some v)

/-- NaN-propagating addition of numpy floats. -/
def oadd : Option ℚ → Option ℚ → Option ℚ
  | some a, some b => some (a + b)
  | _, _ => none

/-- NaN-propagating multiplication of numpy floats. -/
def omul : Option ℚ → Option ℚ → Option ℚ
  | some a, some b => some (a * b)
  | _, _ => none

/-- `get_rate_at_node(initial_rate, up_move, down_move, time, state)`:
raises `ValueError` when `time < state`, otherwise returns
`up_move ** state * down_move ** (time - state) * initial_rate`. -/
def get_rate_at_node (initial_rate up_move down_move : ℚ) (time state : ℕ) :
    Except PyErr ℚ :=
  if time < state then Except.error PyErr.valueError
  else Except.ok (up_move ^ state * down_move ^ (time - state) * initial_rate)

/-- Closed-form node rate `u^j * d^(i-j) * r0` (the value the source returns
on a valid node). -/
def rateVal (r0 u d : ℚ) (i j : ℕ) : ℚ := u ^ j * d ^ (i - j) * r0

/-- The sequence of `(time, state)` pairs at which the nested loops of
`build_rates_tree` invoke `get_rate_at_node`: `time` in `0..T`,
`state` in `0..time`, in program order. -/
def rateCells (T : ℕ) : List (ℕ × ℕ) :=
  (List.range (T + 1)).flatMap fun time =>
    (List.range (time + 1)).map fun state => (time, state)

/-- `build_rates_tree(initial_rate, up_move, down_move, Time)`: allocate an
all-NaN square, assign `tree[0,0] = initial_rate`, then fill every cell
`(time, state)` with `state ≤ time ≤ Time` via `get_rate_at_node`,
aborting on the first exception. -/
def build_rates_tree (r0 u d : ℚ) (T : ℕ) : Except PyErr Grid :=
  (rateCells T).foldlM
    (fun tree ij => (get_rate_at_node r0 u d ij.1 ij.2).map fun r =>
      writeCell tree ij.1 ij.2 r)
    (writeCell emptyLattice 0 0 r0)

/-- Closed form of the finished rate lattice: valid cells hold `rateVal`,
everything else is NaN. -/
def ratesFun (r0 u d : ℚ) (T : ℕ) : Grid :=
  fun i j => if j ≤ i ∧ i ≤ T then some (rateVal r0 u d i j) else none

section RatesLemmas

lemma mem_rateCells {T a b : ℕ} : (a, b) ∈ rateCells T ↔ b ≤ a ∧ a ≤ T := by
  simp only [rateCells, List.mem_flatMap, List.mem_map, List.mem_range]
  constructor
  · rintro ⟨t, ht, s, hs, h⟩
    cases h
    omega
  · rintro ⟨hba, haT⟩
    exact ⟨a, by omega, b, by omega, rfl⟩

lemma writeCell_apply (L : Grid) (i j a b : ℕ) (v : ℚ) :
    writeCell L i j v a b = if a = i ∧ b = j then some v else L a b := rfl

/-- A fold of successful rate computations is the fold of the pure writes. -/
lemma foldlM_rates_ok (r0 u d : ℚ) (cells : List (ℕ × ℕ))
    (hc : ∀ ij ∈ cells, ij.2 ≤ ij.1) (init : Grid) :
    cells.foldlM
      (fun tree ij => (get_rate_at_node r0 u d ij.1 ij.2).map fun r =>
        writeCell tree ij.1 ij.2 r)
      init
    = Except.ok (cells.foldl
        (fun tree ij => writeCell tree ij.1 ij.2 (rateVal r0 u d ij.1 ij.2))
        init) := by
  induction cells generalizing init with
  | nil => rfl
  | cons c cs ih =>
    have hc0 : c.2 ≤ c.1 := hc c (List.mem_cons_self c cs)
    have hrate : get_rate_at_node r0 u d c.1 c.2
        = Except.ok (rateVal r0 u d c.1 c.2) := by
      simp [get_rate_at_node, rateVal, Nat.not_lt.mpr hc0]
    simp only [List.foldlM_cons, hrate, Except.map, List.foldl_cons]
    exact ih (fun ij h => hc ij (List.mem_cons_of_mem c h)) _

/-- Value of a pure write fold at one cell: the written value if the cell is
ever touched, the initial content otherwise. -/
lemma foldl_write_apply (v : ℕ × ℕ → ℚ) (cells : List (ℕ × ℕ))
    (init : Grid) (a b : ℕ) :
    (cells.foldl (fun tree ij => writeCell tree ij.1 ij.2 (v ij)) init) a b
      = if (a, b) ∈ cells then some (v (a, b)) else init a b := by
  induction cells generalizing init with
  | nil => simp
  | cons c cs ih =>
    simp only [List.foldl_cons, ih, List.mem_cons]
    by_cases hcs : (a, b) ∈ cs
    · simp [hcs]
    · by_cases hec : (a, b) = c
      · subst hec
        simp [hcs, writeCell_apply]
      · have : ¬(a = c.1 ∧ b = c.2) := by
          intro h
          exact hec (Prod.ext_iff.mpr h)
        simp [hcs, hec, writeCell_apply, this]

/-- `build_rates_tree` always succeeds and returns the closed-form lattice. -/
lemma build_rates_tree_eq (r0 u d : ℚ) (T : ℕ) :
    build_rates_tree r0 u d T = Except.ok (ratesFun r0 u d T) := by
  unfold build_rates_tree
  rw [foldlM_rates_ok]
  · congr 1
    funext a b
    rw [foldl_write_apply]
    by_cases h : (a, b) ∈ rateCells T
    · have hv := mem_rateCells.mp h
      simp [h, ratesFun, hv]
    · have hv : ¬(b ≤ a ∧ a ≤ T) := fun hh => h (mem_rateCells.mpr hh)
      have h00 : ¬(a = 0 ∧ b = 0) := by
        intro hh
        exact hv ⟨by omega, by omega⟩
      simp [h, ratesFun, hv, writeCell_apply, h00, emptyLattice]
  · intro ij hij
    rcases ij with ⟨i, j⟩
    exact (mem_rateCells.mp hij).1

lemma ratesFun_valid (r0 u d : ℚ) {T i j : ℕ} (hji : j ≤ i) (hiT : i ≤ T) :
    ratesFun r0 u d T i j = some (rateVal r0 u d i j) := by
  simp [ratesFun, hji, hiT]

end RatesLemmas

/-- State of the `build_prices_tree` pass: the price array under construction
plus a ghost log of every `(row, column)` read from the rate tree and from the
price tree.  The logs do not influence the computed prices. -/
structure BuildSt where
  tree : Grid
  rateReads : List (ℕ × ℕ)
  priceReads : List (ℕ × ℕ)

/-- Price array after `price_tree = np.full((Time+1, Time+1), np.NaN)` and the
terminal-row assignment `price_tree[Time, :] = 100.00`. -/
def initPrices (T : ℕ) : Grid :=
  fun a b => if a = T ∧ b ≤ T then some 100 else none

/-- Body of the inner loop of `build_prices_tree` at `(time, step)`:
read `rates_tree[time, step]`, form the discount factor, read the two prices
`price_tree[time+1, step+1]` and `price_tree[time+1, step]`, and write
`price_tree[time, step] = (0.5*up + 0.5*down) * discount`.  Reads are logged. -/
def priceStep (rates : Grid) (st : BuildSt) (time step : ℕ) : BuildSt :=
  let rate := rates time step
  let discount_factor := Option.map (fun r => 1 / (1 + r)) rate
  let prior_up_price := st.tree (time + 1) (step + 1)
  let prior_down_price := st.tree (time + 1) step
  let price := omul (oadd (omul (some 0.5) prior_up_price)
                          (omul (some 0.5) prior_down_price)) discount_factor
  { tree := writeCellO st.tree time step price
    rateReads := st.rateReads ++ [(time, step)]
    priceReads := st.priceReads ++ [(time + 1, step + 1), (time + 1, step)] }

/-- Instrumented `build_prices_tree(initial_rate, up_move, down_move, Time)`:
set the terminal row to 100, build the rate tree, then run the backward
induction with `time` from `Time-1` down to `0` and `step` from `time`
down to `0`. -/
def build_prices_st (r0 u d : ℚ) (T : ℕ) : Except PyErr BuildSt :=
  (build_rates_tree r0 u d T).map fun rates =>
    (List.range T).reverse.foldl
      (fun st time =>
        (List.range (time + 1)).reverse.foldl
          (fun st2 step => priceStep rates st2 time step) st)
      ⟨initPrices T, [], []⟩

/-- `build_prices_tree`: the price array produced by the instrumented build. -/
def build_prices_tree (r0 u d : ℚ) (T : ℕ) : Except PyErr Grid :=
  (build_prices_st r0 u d T).map BuildSt.tree

/-- Fuel-indexed backward-induction value: `priceValAux k i j` is the price at
`(i, j)` when `k = T - i` rows remain below the terminal row. -/
def priceValAux (r0 u d : ℚ) : ℕ → ℕ → ℕ → ℚ
  | 0, _, _ => 100
  | k + 1, i, j =>
      (0.5 * priceValAux r0 u d k (i + 1) (j + 1)
        + 0.5 * priceValAux r0 u d k (i + 1) j)
        * (1 / (1 + rateVal r0 u d i j))

/-- Ideal backward-induction price at cell `(i, j)` of the horizon-`T` tree. -/
def priceVal (r0 u d : ℚ) (T i j : ℕ) : ℚ := priceValAux r0 u d (T - i) i j

/-- Closed form of the finished price lattice: valid cells hold `priceVal`,
everything else is NaN. -/
def priceFun (r0 u d : ℚ) (T : ℕ) : Grid :=
  fun i j => if j ≤ i ∧ i ≤ T then some (priceVal r0 u d T i j) else none

section PriceLemmas

variable {r0 u d : ℚ} {T : ℕ}

lemma priceVal_terminal (r0 u d : ℚ) {T i : ℕ} (j : ℕ) (h : T ≤ i) :
    priceVal r0 u d T i j = 100 := by
  unfold priceVal
  rw [Nat.sub_eq_zero_of_le h]
  rfl

lemma priceVal_step (r0 u d : ℚ) {T i : ℕ} (j : ℕ) (h : i < T) :
    priceVal r0 u d T i j
      = (0.5 * priceVal r0 u d T (i + 1) (j + 1)
          + 0.5 * priceVal r0 u d T (i + 1) j)
          * (1 / (1 + rateVal r0 u d i j)) := by
  unfold priceVal
  have h1 : T - i = (T - (i + 1)) + 1 := by omega
  rw [h1]
  rfl

/-- Rows `t` and below the terminal row filled in, rows above `t` still NaN. -/
def pricesFrom (r0 u d : ℚ) (T t : ℕ) : Grid :=
  fun a b => if t ≤ a ∧ a ≤ T ∧ b ≤ a then some (priceVal r0 u d T a b) else none

lemma initPrices_eq_pricesFrom :
    initPrices T = pricesFrom r0 u d T T := by
  funext a b
  unfold initPrices pricesFrom
  by_cases h : a = T ∧ b ≤ T
  · have h2 : T ≤ a ∧ a ≤ T ∧ b ≤ a := by omega
    rw [if_pos h, if_pos h2, priceVal_terminal r0 u d b (by omega)]
  · have h2 : ¬(T ≤ a ∧ a ≤ T ∧ b ≤ a) := by omega
    rw [if_neg h, if_neg h2]

/-- Intermediate state of the inner loop at row `time`: columns `s` to `time`
of row `time` already written, on top of the rows-below-`time+1` state. -/
def innerTree (r0 u d : ℚ) (T time s : ℕ) : Grid :=
  fun a b =>
    if a = time ∧ s ≤ b ∧ b ≤ time then some (priceVal r0 u d T a b)
    else pricesFrom r0 u d T (time + 1) a b

lemma innerTree_start {time : ℕ} :
    innerTree r0 u d T time (time + 1) = pricesFrom r0 u d T (time + 1) := by
  funext a b
  unfold innerTree
  have h : ¬(a = time ∧ time + 1 ≤ b ∧ b ≤ time) := by omega
  rw [if_neg h]

lemma innerTree_done {time : ℕ} (htT : time < T) :
    innerTree r0 u d T time 0 = pricesFrom r0 u d T time := by
  funext a b
  unfold innerTree pricesFrom
  by_cases h : a = time ∧ 0 ≤ b ∧ b ≤ time
  · have h2 : time ≤ a ∧ a ≤ T ∧ b ≤ a := by omega
    rw [if_pos h, if_pos h2]
  · by_cases h3 : time + 1 ≤ a ∧ a ≤ T ∧ b ≤ a
    · have h4 : time ≤ a ∧ a ≤ T ∧ b ≤ a := by omega
      rw [if_neg h, if_pos h3, if_pos h4]
    · have h4 : ¬(time ≤ a ∧ a ≤ T ∧ b ≤ a) := by omega
      rw [if_neg h, if_neg h3, if_neg h4]

/-- One inner-loop iteration turns `innerTree (s+1)` into `innerTree s`. -/
lemma priceStep_tree {time s : ℕ} (hs : s ≤ time) (htT : time < T)
    (st : BuildSt) (hst : st.tree = innerTree r0 u d T time (s + 1)) :
    (priceStep (ratesFun r0 u d T) st time s).tree
      = innerTree r0 u d T time s := by
  have hrate : ratesFun r0 u d T time s = some (rateVal r0 u d time s) :=
    ratesFun_valid r0 u d hs (by omega)
  have hup : st.tree (time + 1) (s + 1)
      = some (priceVal r0 u d T (time + 1) (s + 1)) := by
    rw [hst]
    unfold innerTree
    have h1 : ¬(time + 1 = time ∧ s + 1 ≤ s + 1 ∧ s + 1 ≤ time) := by omega
    rw [if_neg h1]
    unfold pricesFrom
    have h2 : time + 1 ≤ time + 1 ∧ time + 1 ≤ T ∧ s + 1 ≤ time + 1 := by omega
    rw [if_pos h2]
  have hdown : st.tree (time + 1) s
      = some (priceVal r0 u d T (time + 1) s) := by
    rw [hst]
    unfold innerTree
    have h1 : ¬(time + 1 = time ∧ s + 1 ≤ s ∧ s ≤ time) := by omega
    rw [if_neg h1]
    unfold pricesFrom
    have h2 : time + 1 ≤ time + 1 ∧ time + 1 ≤ T ∧ s ≤ time + 1 := by omega
    rw [if_pos h2]
  unfold priceStep
  simp only [hrate, hup, hdown, Option.map, omul, oadd]
  funext a b
  unfold writeCellO
  by_cases hab : a = time ∧ b = s
  · rw [if_pos hab]
    unfold innerTree
    have h2 : a = time ∧ s ≤ b ∧ b ≤ time := by omega
    rw [if_pos h2]
    have hab1 : a = time := hab.1
    have hab2 : b = s := hab.2
    subst hab1
    subst hab2
    rw [priceVal_step r0 u d b htT]
  · rw [if_neg hab]
    rw [hst]
    unfold innerTree
    by_cases h1 : a = time ∧ s + 1 ≤ b ∧ b ≤ time
    · have h2 : a = time ∧ s ≤ b ∧ b ≤ time := by omega
      rw [if_pos h1, if_pos h2]
    · by_cases h2 : a = time ∧ s ≤ b ∧ b ≤ time
      · exfalso
        omega
      · rw [if_neg h1, if_neg h2]

/-- Validity of the ghost read logs: every read is at a cell with
column ≤ row. -/
def readsValid (st : BuildSt) : Prop :=
  (∀ p ∈ st.rateReads, p.2 ≤ p.1) ∧ (∀ p ∈ st.priceReads, p.2 ≤ p.1)

lemma priceStep_reads {time s : ℕ} (hs : s ≤ time) (rates : Grid)
    (st : BuildSt) (h : readsValid st) :
    readsValid (priceStep rates st time s) := by
  obtain ⟨h1, h2⟩ := h
  constructor
  · intro p hp
    simp only [priceStep, List.mem_append, List.mem_cons,
      List.not_mem_nil, or_false] at hp
    rcases hp with hp | hp
    · exact h1 p hp
    · subst hp
      exact hs
  · intro p hp
    simp only [priceStep, List.mem_append, List.mem_cons,
      List.not_mem_nil, or_false] at hp
    rcases hp with hp | hp | hp
    · exact h2 p hp
    · subst hp
      exact Nat.succ_le_succ hs
    · subst hp
      exact Nat.le_succ_of_le hs

/-- The inner loop, started with columns `≥ s` of row `time` done, finishes
row `time` and keeps the read logs valid. -/
lemma inner_fold {time : ℕ} (htT : time < T) :
    ∀ s, s ≤ time + 1 → ∀ st : BuildSt,
      st.tree = innerTree r0 u d T time s → readsValid st →
      ((List.range s).reverse.foldl
          (fun st2 step => priceStep (ratesFun r0 u d T) st2 time step)
          st).tree = innerTree r0 u d T time 0
      ∧ readsValid ((List.range s).reverse.foldl
          (fun st2 step => priceStep (ratesFun r0 u d T) st2 time step) st) := by
  intro s
  induction s with
  | zero =>
    intro _ st hst hrv
    simpa using ⟨hst, hrv⟩
  | succ s ih =>
    intro hs st hst hrv
    have hrange : (List.range (s + 1)).reverse
        = s :: (List.range s).reverse := by
      rw [List.range_succ, List.reverse_append]
      rfl
    rw [hrange]
    simp only [List.foldl_cons]
    exact ih (by omega) _
      (priceStep_tree (by omega) htT st hst)
      (priceStep_reads (by omega) _ st hrv)

/-- The outer loop, started with rows `≥ t` done, finishes the lattice and
keeps the read logs valid. -/
lemma outer_fold :
    ∀ t, t ≤ T → ∀ st : BuildSt,
      st.tree = pricesFrom r0 u d T t → readsValid st →
      ((List.range t).reverse.foldl
          (fun st1 time =>
            (List.range (time + 1)).reverse.foldl
              (fun st2 step => priceStep (ratesFun r0 u d T) st2 time step) st1)
          st).tree = pricesFrom r0 u d T 0
      ∧ readsValid ((List.range t).reverse.foldl
          (fun st1 time =>
            (List.range (time + 1)).reverse.foldl
              (fun st2 step => priceStep (ratesFun r0 u d T) st2 time step) st1)
          st) := by
  intro t
  induction t with
  | zero =>
    intro _ st hst hrv
    simpa using ⟨hst, hrv⟩
  | succ t ih =>
    intro ht st hst hrv
    have hrange : (List.range (t + 1)).reverse
        = t :: (List.range t).reverse := by
      rw [List.range_succ, List.reverse_append]
      rfl
    rw [hrange]
    simp only [List.foldl_cons]
    have htT : t < T := by omega
    have hinner := @inner_fold r0 u d T t htT (t + 1) (by omega) st
      (by rw [hst, innerTree_start]) hrv
    rw [innerTree_done htT] at hinner
    exact ih (by omega) _ hinner.1 hinner.2

lemma pricesFrom_zero :
    pricesFrom r0 u d T 0 = priceFun r0 u d T := by
  funext a b
  unfold pricesFrom priceFun
  by_cases h : b ≤ a ∧ a ≤ T
  · have h2 : 0 ≤ a ∧ a ≤ T ∧ b ≤ a := by omega
    rw [if_pos h2, if_pos h]
  · have h2 : ¬(0 ≤ a ∧ a ≤ T ∧ b ≤ a) := by omega
    rw [if_neg h2, if_neg h]

/-- `build_prices_st` always succeeds; its price array is the closed form and
its read logs only mention structurally valid cells. -/
lemma build_prices_st_eq (r0 u d : ℚ) (T : ℕ) :
    ∃ st : BuildSt, build_prices_st r0 u d T = Except.ok st
      ∧ st.tree = priceFun r0 u d T ∧ readsValid st := by
  unfold build_prices_st
  rw [build_rates_tree_eq]
  refine ⟨_, rfl, ?_⟩
  have h0 := @outer_fold r0 u d T T le_rfl
    ⟨initPrices T, [], []⟩ initPrices_eq_pricesFrom
    ⟨fun p hp => absurd hp (List.not_mem_nil p),
     fun p hp => absurd hp (List.not_mem_nil p)⟩
  rw [pricesFrom_zero] at h0
  exact h0

/-- `build_prices_tree` always succeeds and returns the closed-form lattice. -/
lemma build_prices_tree_eq (r0 u d : ℚ) (T : ℕ) :
    build_prices_tree r0 u d T = Except.ok (priceFun r0 u d T) := by
  obtain ⟨st, hst, htree, _⟩ := build_prices_st_eq r0 u d T
  unfold build_prices_tree
  rw [hst, Except.map, htree]

end PriceLemmas

/-- Spot-rate formula `(100 / P0) ** (1 / T) - 1` applied to a root price,
valued in ℝ because of the fractional power (`Real.rpow` is noncomputable,
hence so is this definition). -/
noncomputable def spotVal (p : ℚ) (T : ℕ) : ℝ :=
  ((100 / p : ℚ) : ℝ) ^ ((1 : ℝ) / (T : ℝ)) - 1

/-- `get_spot_rate(short_rate, up_move, down_move, periods)`: build the price
tree, read the root `price_tree[0,0]`, then evaluate
`((100/bond_price) ** (1/periods)) - 1`.  The integer division `1/periods`
raises `ZeroDivisionError` when `periods = 0`; the float division
`100/bond_price` and the power do not raise (NaN roots propagate to NaN,
modelled by `Option.map`). -/
noncomputable def get_spot_rate (short_rate up_move down_move : ℚ)
    (periods : ℕ) : Except PyErr (Option ℝ) :=
  match build_prices_tree short_rate up_move down_move periods with
  | Except.error e => Except.error e
  | Except.ok price_tree =>
      let bond_price := price_tree 0 0
      if periods = 0 then Except.error PyErr.zeroDivisionError
      else Except.ok (bond_price.map fun p => spotVal p periods)

section SpotLemmas

lemma priceFun_root (r0 u d : ℚ) (T : ℕ) :
    priceFun r0 u d T 0 0 = some (priceVal r0 u d T 0 0) := by
  simp [priceFun]

lemma get_spot_rate_zero (r0 u d : ℚ) :
    get_spot_rate r0 u d 0 = Except.error PyErr.zeroDivisionError := by
  unfold get_spot_rate
  rw [build_prices_tree_eq]
  rfl

lemma get_spot_rate_pos (r0 u d : ℚ) {T : ℕ} (hT : T ≠ 0) :
    get_spot_rate r0 u d T
      = Except.ok (some (spotVal (priceVal r0 u d T 0 0) T)) := by
  unfold get_spot_rate
  rw [build_prices_tree_eq]
  simp [hT, priceFun_root]

end SpotLemmas

section BoundsLemmas

lemma rateVal_pos {r0 u d : ℚ} (hr : 0 < r0) (hu : 0 < u) (hd : 0 < d)
    (i j : ℕ) : 0 < rateVal r0 u d i j :=
  mul_pos (mul_pos (pow_pos hu j) (pow_pos hd (i - j))) hr

/-- Backward-induction bounds: every price is in `(0, 100]`, strictly below
100 on non-terminal rows, whenever all three parameters are positive. -/
lemma priceVal_bounds {r0 u d : ℚ} (hr : 0 < r0) (hu : 0 < u) (hd : 0 < d)
    (T : ℕ) :
    ∀ k i j, T - i = k → i ≤ T →
      0 < priceVal r0 u d T i j ∧ priceVal r0 u d T i j ≤ 100
        ∧ (i < T → priceVal r0 u d T i j < 100) := by
  intro k
  induction k with
  | zero =>
    intro i j hk hiT
    have hiT2 : T ≤ i := by omega
    rw [priceVal_terminal r0 u d j hiT2]
    refine ⟨by norm_num, le_rfl, fun h => absurd h (by omega)⟩
  | succ k ih =>
    intro i j hk hiT
    have hi : i < T := by omega
    obtain ⟨hu1, hu2, _⟩ := ih (i + 1) (j + 1) (by omega) (by omega)
    obtain ⟨hd1, hd2, _⟩ := ih (i + 1) j (by omega) (by omega)
    have hrate := rateVal_pos hr hu hd i j
    have hdiscpos : 0 < 1 / (1 + rateVal r0 u d i j) := by positivity
    have hdisclt : 1 / (1 + rateVal r0 u d i j) < 1 := by
      rw [div_lt_one (by positivity)]
      linarith
    have hmidpos : 0 < 0.5 * priceVal r0 u d T (i + 1) (j + 1)
        + 0.5 * priceVal r0 u d T (i + 1) j := by
      norm_num
      linarith
    have hmidle : 0.5 * priceVal r0 u d T (i + 1) (j + 1)
        + 0.5 * priceVal r0 u d T (i + 1) j ≤ 100 := by
      norm_num
      linarith
    rw [priceVal_step r0 u d j hi]
    constructor
    · exact mul_pos hmidpos hdiscpos
    · have hlt : (0.5 * priceVal r0 u d T (i + 1) (j + 1)
          + 0.5 * priceVal r0 u d T (i + 1) j)
          * (1 / (1 + rateVal r0 u d i j))
          < 0.5 * priceVal r0 u d T (i + 1) (j + 1)
            + 0.5 * priceVal r0 u d T (i + 1) j :=
        mul_lt_of_lt_one_right hmidpos hdisclt
      exact ⟨le_of_lt (lt_of_lt_of_le hlt hmidle),
        fun _ => lt_of_lt_of_le hlt hmidle⟩

end BoundsLemmas

section CountingLemmas

lemma rateCells_succ (T : ℕ) :
    rateCells (T + 1)
      = rateCells T ++ (List.range (T + 2)).map (fun s => (T + 1, s)) := by
  unfold rateCells
  rw [List.range_succ, List.flatMap_append]
  simp [List.range_succ]

lemma rateCells_nodup (T : ℕ) : (rateCells T).Nodup := by
  induction T with
  | zero => decide
  | succ T ih =>
    rw [rateCells_succ]
    refine List.Nodup.append ih ?_ ?_
    · exact List.Nodup.map
        (fun a b h => by simpa using h) (List.nodup_range _)
    · intro p hp hp2
      rcases p with ⟨a, b⟩
      have h1 : a ≤ T := (mem_rateCells.mp hp).2
      simp only [List.mem_map, List.mem_range] at hp2
      obtain ⟨s, _, hs⟩ := hp2
      cases hs
      omega

lemma rateCells_length (T : ℕ) :
    (rateCells T).length * 2 = (T + 1) * (T + 2) := by
  induction T with
  | zero => rfl
  | succ T ih =>
    rw [rateCells_succ, List.length_append, List.length_map,
      List.length_range]
    ring_nf
    ring_nf at ih
    omega

end CountingLemmas

/-- C1: for every horizon `T ≥ 1` and parameters `r0, u, d`, the price lattice
returned by `build_prices_tree` has terminal row `P[T,j] = 100` for every
valid `j ∈ [0,T]`, and for every `time ∈ [0,T-1]` and `state ∈ [0,time]`,
`P[time,state] = 0.5 * (P[time+1,state+1] + P[time+1,state])
* (1 / (1 + R[time,state]))`, where `R` is the rate lattice built from the
same parameters. -/
theorem C1_price_lattice_recurrence (r0 u d : ℚ) (T : ℕ) (hT : 1 ≤ T) :
    ∃ P R : Grid, build_prices_tree r0 u d T = Except.ok P
      ∧ build_rates_tree r0 u d T = Except.ok R
      ∧ (∀ j ≤ T, P T j = some 100)
      ∧ (∀ time state, time + 1 ≤ T → state ≤ time →
          ∃ p pu pd r : ℚ,
            P time state = some p
            ∧ P (time + 1) (state + 1) = some pu
            ∧ P (time + 1) state = some pd
            ∧ R time state = some r
            ∧ p = 0.5 * (pu + pd) * (1 / (1 + r))) := by
  refine ⟨priceFun r0 u d T, ratesFun r0 u d T,
    build_prices_tree_eq r0 u d T, build_rates_tree_eq r0 u d T, ?_, ?_⟩
  · intro j hj
    simp [priceFun, hj, priceVal_terminal r0 u d j le_rfl]
  · intro time state h1 h2
    refine ⟨priceVal r0 u d T time state,
      priceVal r0 u d T (time + 1) (state + 1),
      priceVal r0 u d T (time + 1) state,
      rateVal r0 u d time state, ?_, ?_, ?_, ?_, ?_⟩
    · simp [priceFun]
      omega
    · simp [priceFun]
      omega
    · simp [priceFun]
      omega
    · exact ratesFun_valid r0 u d h2 (by omega)
    · rw [priceVal_step r0 u d state (by omega)]
      ring

/-- C1 witness: the theorem instantiated at `r0 = 0, u = 0, d = 0, T = 1`. -/
theorem C1_price_lattice_recurrence_witness :
    ∃ P R : Grid, build_prices_tree 0 0 0 1 = Except.ok P
      ∧ build_rates_tree 0 0 0 1 = Except.ok R
      ∧ (∀ j ≤ 1, P 1 j = some 100)
      ∧ (∀ time state, time + 1 ≤ 1 → state ≤ time →
          ∃ p pu pd r : ℚ,
            P time state = some p
            ∧ P (time + 1) (state + 1) = some pu
            ∧ P (time + 1) state = some pd
            ∧ R time state = some r
            ∧ p = 0.5 * (pu + pd) * (1 / (1 + r))) :=
  C1_price_lattice_recurrence 0 0 0 1 (by norm_num)

/-- C2: for every `r0 > 0`, `u`, `d` and every pair `(i,j)` with `j ≤ i`,
`get_rate_at_node` returns exactly `u^j * d^(i-j) * r0`, and every valid cell
`(i,j)` of the lattice returned by `build_rates_tree` with horizon `T ≥ i`
holds that same value. -/
theorem C2_node_rate_closed_form (r0 u d : ℚ) (i j T : ℕ)
    (hr : 0 < r0) (hji : j ≤ i) (hiT : i ≤ T) :
    get_rate_at_node r0 u d i j = Except.ok (u ^ j * d ^ (i - j) * r0)
      ∧ ∃ R : Grid, build_rates_tree r0 u d T = Except.ok R
          ∧ R i j = some (u ^ j * d ^ (i - j) * r0) := by
  refine ⟨?_, ratesFun r0 u d T, build_rates_tree_eq r0 u d T,
    ratesFun_valid r0 u d hji hiT⟩
  simp [get_rate_at_node, Nat.not_lt.mpr hji]

/-- C2 witness: the theorem instantiated at
`r0 = 1, u = 1, d = 1, i = 1, j = 0, T = 1`. -/
theorem C2_node_rate_closed_form_witness :
    get_rate_at_node 1 1 1 1 0 = Except.ok ((1 : ℚ) ^ 0 * 1 ^ (1 - 0) * 1)
      ∧ ∃ R : Grid, build_rates_tree 1 1 1 1 = Except.ok R
          ∧ R 1 0 = some ((1 : ℚ) ^ 0 * 1 ^ (1 - 0) * 1) :=
  C2_node_rate_closed_form 1 1 1 1 0 1 (by norm_num) (by norm_num) (by norm_num)

/-- C3: for every horizon `T ≥ 1` and parameters `r0, u, d`, `get_spot_rate`
returns `(100 / P0) ^ (1/T) - 1`, where `P0` is the root cell `(0,0)` of the
price lattice built from the same parameters. -/
theorem C3_spot_rate_formula (r0 u d : ℚ) (T : ℕ) (hT : 1 ≤ T) :
    ∃ P : Grid, build_prices_tree r0 u d T = Except.ok P
      ∧ ∃ p0 : ℚ, P 0 0 = some p0
        ∧ get_spot_rate r0 u d T
            = Except.ok (some
                (((100 / p0 : ℚ) : ℝ) ^ ((1 : ℝ) / (T : ℝ)) - 1)) := by
  refine ⟨priceFun r0 u d T, build_prices_tree_eq r0 u d T,
    priceVal r0 u d T 0 0, priceFun_root r0 u d T, ?_⟩
  exact get_spot_rate_pos r0 u d (by omega)

/-- C3 witness: the theorem instantiated at `r0 = 0, u = 0, d = 0, T = 1`. -/
theorem C3_spot_rate_formula_witness :
    ∃ P : Grid, build_prices_tree 0 0 0 1 = Except.ok P
      ∧ ∃ p0 : ℚ, P 0 0 = some p0
        ∧ get_spot_rate 0 0 0 1
            = Except.ok (some
                (((100 / p0 : ℚ) : ℝ) ^ ((1 : ℝ) / ((1 : ℕ) : ℝ)) - 1)) :=
  C3_spot_rate_formula 0 0 0 1 (by norm_num)

/-- C4: for every horizon `T`, `build_rates_tree` populates exactly
`(T+1)(T+2)/2` valid cells — all `(i,j)` with `j ≤ i ≤ T` — and no cell is
computed more than once during the build: the list `rateCells T` of cells at
which `get_rate_at_node` is invoked has no duplicates, enumerates exactly the
valid cells, and has length `(T+1)(T+2)/2`. -/
theorem C4_rates_tree_cell_count (r0 u d : ℚ) (T : ℕ) :
    ∃ R : Grid, build_rates_tree r0 u d T = Except.ok R
      ∧ (∀ i j : ℕ, (R i j).isSome ↔ (j ≤ i ∧ i ≤ T))
      ∧ (∀ ij : ℕ × ℕ, ij ∈ rateCells T ↔ (ij.2 ≤ ij.1 ∧ ij.1 ≤ T))
      ∧ (rateCells T).Nodup
      ∧ (rateCells T).length = (T + 1) * (T + 2) / 2 := by
  refine ⟨ratesFun r0 u d T, build_rates_tree_eq r0 u d T, ?_, ?_,
    rateCells_nodup T, ?_⟩
  · intro i j
    unfold ratesFun
    by_cases h : j ≤ i ∧ i ≤ T
    · simp [h]
    · simp [h]
  · intro ij
    rcases ij with ⟨a, b⟩
    exact mem_rateCells
  · have := rateCells_length T
    omega

/-- C5 counterexample: at `r0 = -2, u = 1, d = 1, T = 1` the root price is
`P0 = -100 ≤ 0`, yet `get_spot_rate` does not fail: it returns the numeric
value `-2`.  This refutes the claim that `get_spot_rate` fails whenever
`P0 ≤ 0`. -/
theorem C5_counterexample :
    ∃ P : Grid, build_prices_tree (-2) 1 1 1 = Except.ok P
      ∧ P 0 0 = some (-100)
      ∧ ((-100 : ℚ) ≤ 0)
      ∧ get_spot_rate (-2) 1 1 1 = Except.ok (some (-2)) := by
  have hval : priceVal (-2) 1 1 1 0 0 = -100 := by
    norm_num [priceVal, priceValAux, rateVal]
  refine ⟨priceFun (-2) 1 1 1, build_prices_tree_eq (-2) 1 1 1, ?_, by norm_num, ?_⟩
  · rw [priceFun_root, hval]
  · rw [get_spot_rate_pos (-2) 1 1 (by norm_num), hval]
    have : spotVal (-100) 1 = -2 := by
      unfold spotVal
      norm_num [Real.rpow_one]
    rw [this]

/-- C5 amended: `get_spot_rate` fails (with the division-by-zero error raised
by `1/periods`) whenever `T = 0`; for every `T ≥ 1` it never fails — it
returns a numeric result even when the root price `P0` is non-positive. -/
theorem C5_amended_spot_rate_errors (r0 u d : ℚ) :
    get_spot_rate r0 u d 0 = Except.error PyErr.zeroDivisionError
      ∧ ∀ T : ℕ, 1 ≤ T → ∃ v : ℝ, get_spot_rate r0 u d T
          = Except.ok (some v) := by
  refine ⟨get_spot_rate_zero r0 u d, fun T hT => ?_⟩
  exact ⟨_, get_spot_rate_pos r0 u d (by omega)⟩

/-- C5 amended witness: the theorem instantiated at `r0 = 0, u = 0, d = 0`,
with the inner horizon hypothesis discharged at `T = 1`. -/
theorem C5_amended_spot_rate_errors_witness :
    get_spot_rate 0 0 0 0 = Except.error PyErr.zeroDivisionError
      ∧ ∃ v : ℝ, get_spot_rate 0 0 0 1 = Except.ok (some v) :=
  ⟨(C5_amended_spot_rate_errors 0 0 0).1,
   (C5_amended_spot_rate_errors 0 0 0).2 1 (by norm_num)⟩

/-- C6 counterexample: at `r0 = -2, u = 1, d = 1, T = 1` the backward pass
encounters the rate `R[0,0] = -2` with `1 + R[0,0] ≤ 0` (a non-positive
discount denominator), yet `build_prices_tree` raises no error and produces
the numeric root price `-100`.  This refutes the claim that such an encounter
surfaces as a `DomainError`. -/
theorem C6_counterexample :
    ∃ R P : Grid, build_rates_tree (-2) 1 1 1 = Except.ok R
      ∧ R 0 0 = some (-2)
      ∧ ((1 : ℚ) + (-2) ≤ 0)
      ∧ build_prices_tree (-2) 1 1 1 = Except.ok P
      ∧ P 0 0 = some (-100) := by
  refine ⟨ratesFun (-2) 1 1 1, priceFun (-2) 1 1 1,
    build_rates_tree_eq (-2) 1 1 1, ?_, by norm_num,
    build_prices_tree_eq (-2) 1 1 1, ?_⟩
  · rw [ratesFun_valid (-2) 1 1 (le_refl 0) (by norm_num)]
    norm_num [rateVal]
  · rw [priceFun_root]
    norm_num [priceVal, priceValAux, rateVal]

/-- C6 amended: the backward-induction pass of `build_prices_tree` never reads
a structurally invalid cell (`j > i`), and an encounter with a rate whose
discount denominator `1 + R[time,state]` is non-positive does not surface as
an error: the build always succeeds and returns a numeric price lattice. -/
theorem C6_amended_no_domain_error (r0 u d : ℚ) (T : ℕ) :
    ∃ st : BuildSt, build_prices_st r0 u d T = Except.ok st
      ∧ build_prices_tree r0 u d T = Except.ok st.tree
      ∧ (∀ p ∈ st.rateReads, p.2 ≤ p.1)
      ∧ (∀ p ∈ st.priceReads, p.2 ≤ p.1) := by
  obtain ⟨st, hst, htree, hrv⟩ := build_prices_st_eq r0 u d T
  exact ⟨st, hst, by rw [build_prices_tree, hst, Except.map], hrv.1, hrv.2⟩

/-- C7: `get_rate_at_node` fails (with the invalid-state error, raised as
`ValueError` in the source) if and only if the state index exceeds the time
index, and succeeds with a value if and only if `j ≤ i`. -/
theorem C7_invalid_state_iff (r0 u d : ℚ) (i j : ℕ) :
    ((∃ e, get_rate_at_node r0 u d i j = Except.error e) ↔ i < j)
      ∧ ((∃ v, get_rate_at_node r0 u d i j = Except.ok v) ↔ j ≤ i) := by
  unfold get_rate_at_node
  by_cases h : i < j
  · rw [if_pos h]
    refine ⟨⟨fun _ => h, fun _ => ⟨PyErr.valueError, rfl⟩⟩, ?_, ?_⟩
    · rintro ⟨v, hv⟩
      exact absurd hv (by simp)
    · intro h2
      omega
  · rw [if_neg h]
    refine ⟨⟨?_, ?_⟩, fun _ => Nat.not_lt.mp h, fun _ => ⟨_, rfl⟩⟩
    · rintro ⟨e, he⟩
      exact absurd he (by simp)
    · intro h2
      omega

/-- C8: in the square allocations built by `build_rates_tree` and
`build_prices_tree`, every structurally invalid cell (`j > i`) holds the NaN
sentinel (`none`) after construction, and the backward-induction pass never
reads a cell with `j > i` — neither from the rate tree nor from the price
tree — so no invalid cell's value influences a valid cell. -/
theorem C8_sentinels_and_reads (r0 u d : ℚ) (T : ℕ) :
    ∃ R : Grid, ∃ st : BuildSt,
      build_rates_tree r0 u d T = Except.ok R
      ∧ build_prices_st r0 u d T = Except.ok st
      ∧ build_prices_tree r0 u d T = Except.ok st.tree
      ∧ (∀ i j, i < j → R i j = none)
      ∧ (∀ i j, i < j → st.tree i j = none)
      ∧ (∀ p ∈ st.rateReads, p.2 ≤ p.1)
      ∧ (∀ p ∈ st.priceReads, p.2 ≤ p.1) := by
  obtain ⟨st, hst, htree, hrv⟩ := build_prices_st_eq r0 u d T
  refine ⟨ratesFun r0 u d T, st, build_rates_tree_eq r0 u d T, hst,
    by rw [build_prices_tree, hst, Except.map], ?_, ?_, hrv.1, hrv.2⟩
  · intro i j hij
    simp [ratesFun]
    omega
  · intro i j hij
    rw [htree]
    simp [priceFun]
    omega

/-- C9 counterexample: with `d = 1` and `r0 = 1 > 0` fixed, `i = 2 ≥ 1`, and
up-moves `u1 = -1 < u2 = 0`, the top-state rate with `u2` is `0`, which does
not exceed the top-state rate `1` obtained with `u1`.  This refutes strict
monotonicity in `u` over all pairs `u2 > u1`. -/
theorem C9_counterexample :
    (-1 : ℚ) < 0 ∧ (0 : ℚ) < 1 ∧ (1 : ℕ) ≤ 2
      ∧ get_rate_at_node 1 (-1) 1 2 2 = Except.ok 1
      ∧ get_rate_at_node 1 0 1 2 2 = Except.ok 0
      ∧ ¬((0 : ℚ) > 1) := by
  refine ⟨by norm_num, by norm_num, by norm_num, ?_, ?_, by norm_num⟩
  · norm_num [get_rate_at_node]
  · norm_num [get_rate_at_node]

/-- C9 amended: with `d` and `r0 > 0` held fixed, the top-state rate
`rate(i,i)` returned by `get_rate_at_node` is strictly increasing in the
up-move factor over non-negative up-moves: for all `0 ≤ u1 < u2` and `i ≥ 1`,
the rate computed with `u2` exceeds the rate computed with `u1`. -/
theorem C9_amended_monotone_in_up (r0 d u1 u2 : ℚ) (i : ℕ)
    (hr : 0 < r0) (hu1 : 0 ≤ u1) (h12 : u1 < u2) (hi : 1 ≤ i) :
    ∃ r1 r2 : ℚ, get_rate_at_node r0 u1 d i i = Except.ok r1
      ∧ get_rate_at_node r0 u2 d i i = Except.ok r2 ∧ r1 < r2 := by
  refine ⟨u1 ^ i * d ^ (i - i) * r0, u2 ^ i * d ^ (i - i) * r0, ?_, ?_, ?_⟩
  · simp [get_rate_at_node]
  · simp [get_rate_at_node]
  · rw [Nat.sub_self i, pow_zero]
    have hpow := pow_lt_pow_left₀ h12 hu1 (by omega : i ≠ 0)
    nlinarith

/-- C9 amended witness: the theorem instantiated at
`r0 = 1, d = 1, u1 = 0, u2 = 1, i = 1`. -/
theorem C9_amended_monotone_in_up_witness :
    ∃ r1 r2 : ℚ, get_rate_at_node 1 0 1 1 1 = Except.ok r1
      ∧ get_rate_at_node 1 1 1 1 1 = Except.ok r2 ∧ r1 < r2 :=
  C9_amended_monotone_in_up 1 1 0 1 1 (by norm_num) (by norm_num)
    (by norm_num) (by norm_num)

/-- C10: for every horizon `T ≥ 1` and positive parameters
`r0 > 0, u > 0, d > 0`, every valid cell of the price lattice returned by
`build_prices_tree` satisfies `0 < P[i,j] ≤ 100`, with strict inequality
`P[i,j] < 100` on every non-terminal row `i < T`. -/
theorem C10_price_bounds (r0 u d : ℚ) (T : ℕ)
    (hT : 1 ≤ T) (hr : 0 < r0) (hu : 0 < u) (hd : 0 < d) :
    ∃ P : Grid, build_prices_tree r0 u d T = Except.ok P
      ∧ ∀ i j, j ≤ i → i ≤ T →
          ∃ p : ℚ, P i j = some p ∧ 0 < p ∧ p ≤ 100 ∧ (i < T → p < 100) := by
  refine ⟨priceFun r0 u d T, build_prices_tree_eq r0 u d T, ?_⟩
  intro i j hji hiT
  refine ⟨priceVal r0 u d T i j, by simp [priceFun, hji, hiT], ?_⟩
  exact priceVal_bounds hr hu hd T (T - i) i j rfl hiT

/-- C10 witness: the theorem instantiated at `r0 = 1, u = 1, d = 1, T = 1`. -/
theorem C10_price_bounds_witness :
    ∃ P : Grid, build_prices_tree 1 1 1 1 = Except.ok P
      ∧ ∀ i j, j ≤ i → i ≤ 1 →
          ∃ p : ℚ, P i j = some p ∧ 0 < p ∧ p ≤ 100 ∧ (i < 1 → p < 100) :=
  C10_price_bounds 1 1 1 1 (by norm_num) (by norm_num) (by norm_num)
    (by norm_num)
